import Mathlib

/-!
Verification development for the Jepsh runtime core: a shallow embedding of
the keyed tree-reconciliation engine (src/runtime/src/dom/diff.ts,
src/runtime/src/dom/vdom.ts) and of the reactive Atom/Effect/scheduler
system (src/runtime/src/core/atom.ts), together with theorems settling the
specification claims about them.

Conventions of the embedding:
* DOM `Node` handles are modelled as natural numbers (opaque identifiers).
* JavaScript `undefined`/`null` optional fields become `Option`.
* The `while` loop of `diffChildren` is modelled with an explicit fuel
  parameter; `none` means the loop did not reach its exit condition within
  the given fuel.  (The loop can genuinely diverge; see the theorems on
  termination.)
* Machine numbers that can go below zero (the `oldTail`/`newTail` cursors,
  initialised to `length - 1`) are modelled as `Int`.
-/

namespace Jepsh

/-- `VNode.type : string | Function | null` from vdom.ts, as a closed variant:
a tag name, a component reference (opaque id), or `null` (text node). -/
inductive VNodeType : Type where
  | tagName : String → VNodeType
  | componentRef : Nat → VNodeType
  | nullType : VNodeType
deriving DecidableEq, Repr

/-- The `VNode` interface of vdom.ts: `type`, `props`, `children`, optional
`key`, and the internal committed binding `_dom` (modelled as `dom`).
Prop values are modelled as strings. -/
inductive VNode : Type where
  | mk : VNodeType → List (String × String) → List VNode → Option String →
      Option Nat → VNode

/-- `VNode.type`. -/
def VNode.ty : VNode → VNodeType
  | .mk t _ _ _ _ => t

/-- `VNode.props`. -/
def VNode.props : VNode → List (String × String)
  | .mk _ p _ _ _ => p

/-- `VNode.children`. -/
def VNode.children : VNode → List VNode
  | .mk _ _ c _ _ => c

/-- `VNode.key`. -/
def VNode.key : VNode → Option String
  | .mk _ _ _ k _ => k

/-- `VNode._dom` (the committed binding). -/
def VNode.dom : VNode → Option Nat
  | .mk _ _ _ _ d => d

/-- `ChildMove.type : 'INSERT' | 'MOVE'` from vdom.ts. -/
inductive MoveKind : Type where
  | insert : MoveKind
  | move : MoveKind
deriving DecidableEq, Repr

/-- The `ChildMove` interface of vdom.ts: kind, DOM node, target index. -/
structure ChildMove : Type where
  kind : MoveKind
  node : Nat
  index : Nat
deriving DecidableEq, Repr

/-- The `Patch` tagged union of vdom.ts. -/
inductive Patch : Type where
  | CREATE : VNode → Nat → Patch
  | REMOVE : Nat → Patch
  | SET_PROP : Nat → String → String → Patch
  | REMOVE_PROP : Nat → String → Option String → Patch
  | REPLACE : Nat → VNode → Patch
  | REORDER_CHILDREN : Nat → List ChildMove → Patch

/-- Property lookup on a props object (`props[name]`, `undefined` when
absent). JS objects have no duplicate keys; lookup takes the first match. -/
def lookupProp (ps : List (String × String)) (n : String) : Option String :=
  (ps.find? (fun p => p.1 == n)).map (fun p => p.2)

/-- `diffProps` of diff.ts: first pass over the new props emits `SET_PROP`
for every name whose old value differs (including absent-in-old), second
pass over the old props emits `REMOVE_PROP` for every name not in the new
props. -/
def diffProps (domNode : Nat) (oldProps newProps : List (String × String)) :
    List Patch :=
  (newProps.filterMap (fun p =>
    if lookupProp oldProps p.1 = some p.2 then none
    else some (Patch.SET_PROP domNode p.1 p.2))) ++
  (oldProps.filterMap (fun p =>
    if (lookupProp newProps p.1).isSome then none
    else some (Patch.REMOVE_PROP domNode p.1 (some p.2))))

/-- `oldKeyed[key]` of diff.ts: the table is built once from the original
`oldChildren` before the loop, mapping each non-null key to the child and
its index; a later child with the same key overwrites an earlier one
(object assignment), so lookup returns the last occurrence. -/
def keyedLookup (cs : List VNode) (k : String) : Option (VNode × Nat) :=
  cs.enum.foldl (fun acc p =>
    match p.2.key with
    | some k2 => if k2 = k then some (p.2, p.1) else acc
    | none => acc) none

/-- The mutable cursor-and-accumulator state of the `diffChildren` loop:
the (tombstonable) copy of `oldChildren`, the four cursors, and the
`patches`/`moves` accumulated so far. -/
structure LoopSt : Type where
  oldCs : List (Option VNode)
  oldHead : Nat
  oldTail : Int
  newHead : Nat
  newTail : Int
  patches : List Patch
  moves : List ChildMove

mutual

/-- `diffNode` of diff.ts (fuelled).  Case 1: removed (`REMOVE` only when
the old node has a binding); case 2: added (`CREATE`); case 3: type changed
(`REPLACE` only when the old node has a binding); case 4: same type — when
the old binding is missing the function warns and returns without patches,
otherwise it diffs props and recurses into children. -/
def diffNode (fuel : Nat) (oldVNode newVNode : Option VNode)
    (parentDom : Nat) : Option (List Patch) :=
  match fuel with
  | 0 => none
  | Nat.succ f =>
    match newVNode with
    | none =>
      match oldVNode with
      | some o =>
        match o.dom with
        | some dn => some [Patch.REMOVE dn]
        | none => some []
      | none => some []
    | some n =>
      match oldVNode with
      | none => some [Patch.CREATE n parentDom]
      | some o =>
        if o.ty ≠ n.ty then
          match o.dom with
          | some dn => some [Patch.REPLACE dn n]
          | none => some []
        else
          match o.dom with
          | none => some []
          | some dn =>
            match diffChildren f dn o.children n.children with
            | none => none
            | some cps => some (diffProps dn o.props n.props ++ cps)
termination_by structural fuel

/-- `diffChildren` of diff.ts (fuelled): build the keyed table, run the
four-pointer loop, then emit a `REMOVE` for every entry still present in
the (tombstoned) old-children array that carries a binding, and finally a
single `REORDER_CHILDREN` if any moves were recorded. -/
def diffChildren (fuel : Nat) (parentDom : Nat)
    (oldChildren newChildren : List VNode) : Option (List Patch) :=
  match fuel with
  | 0 => none
  | Nat.succ f =>
    match childLoop f parentDom oldChildren newChildren
        ⟨oldChildren.map some, 0, (oldChildren.length : Int) - 1, 0,
          (newChildren.length : Int) - 1, [], []⟩ with
    | none => none
    | some st =>
      let removals := st.oldCs.filterMap (fun oc =>
        match oc with
        | some c =>
          match c.dom with
          | some dn => some (Patch.REMOVE dn)
          | none => none
        | none => none)
      let reorder :=
        if st.moves.isEmpty then []
        else [Patch.REORDER_CHILDREN parentDom st.moves]
      some (st.patches ++ removals ++ reorder)
termination_by structural fuel

/-- One iteration of the `while (newHead <= newTail || oldHead <= oldTail)`
loop of `diffChildren`.  The head/tail probes are `null` when the
corresponding range is exhausted (JS reads out of range as `undefined`) or
when the slot was tombstoned.  Branch (a): old-head/new-head key match. -/
def childLoop (fuel : Nat) (parentDom : Nat)
    (oldChildren newChildren : List VNode) (st : LoopSt) : Option LoopSt :=
  match fuel with
  | 0 => none
  | Nat.succ f =>
    if (st.newHead : Int) ≤ st.newTail ∨ (st.oldHead : Int) ≤ st.oldTail then
      let ohv : Option VNode :=
        if (st.oldHead : Int) ≤ st.oldTail then (st.oldCs[st.oldHead]?).getD none
        else none
      let otv : Option VNode :=
        if (st.oldHead : Int) ≤ st.oldTail then
          (st.oldCs[st.oldTail.toNat]?).getD none
        else none
      let nhv : Option VNode :=
        if (st.newHead : Int) ≤ st.newTail then newChildren[st.newHead]?
        else none
      let ntv : Option VNode :=
        if (st.newHead : Int) ≤ st.newTail then newChildren[st.newTail.toNat]?
        else none
      match ohv, nhv with
      | some oh, some nh =>
        if oh.key = nh.key then
          match diffNode f (some oh) (some nh) parentDom with
          | none => none
          | some ps =>
            childLoop f parentDom oldChildren newChildren
              { st with patches := st.patches ++ ps,
                        oldHead := st.oldHead + 1, newHead := st.newHead + 1 }
        else stepTailTail f parentDom oldChildren newChildren st ohv otv nhv ntv
      | _, _ => stepTailTail f parentDom oldChildren newChildren st ohv otv nhv ntv
    else some st
termination_by structural fuel

/-- Branch (b) of the loop: old-tail/new-tail key match — diff, retreat both
tails.  Falls through to branch (c) otherwise. -/
def stepTailTail (fuel : Nat) (parentDom : Nat)
    (oldChildren newChildren : List VNode) (st : LoopSt)
    (ohv otv nhv ntv : Option VNode) : Option LoopSt :=
  match fuel with
  | 0 => none
  | Nat.succ f =>
    match otv, ntv with
    | some ot, some nt =>
      if ot.key = nt.key then
        match diffNode f (some ot) (some nt) parentDom with
        | none => none
        | some ps =>
          childLoop f parentDom oldChildren newChildren
            { st with patches := st.patches ++ ps,
                      oldTail := st.oldTail - 1, newTail := st.newTail - 1 }
      else stepHeadTail f parentDom oldChildren newChildren st ohv otv nhv ntv
    | _, _ => stepHeadTail f parentDom oldChildren newChildren st ohv otv nhv ntv
termination_by structural fuel

/-- Branch (c) of the loop: old-head/new-tail key match — diff, advance
old-head, retreat new-tail.  The source records no move here (its body
carries a `TODO: physically move the DOM node`).  Falls through to branch
(d) otherwise. -/
def stepHeadTail (fuel : Nat) (parentDom : Nat)
    (oldChildren newChildren : List VNode) (st : LoopSt)
    (ohv otv nhv ntv : Option VNode) : Option LoopSt :=
  match fuel with
  | 0 => none
  | Nat.succ f =>
    match ohv, ntv with
    | some oh, some nt =>
      if oh.key = nt.key then
        match diffNode f (some oh) (some nt) parentDom with
        | none => none
        | some ps =>
          childLoop f parentDom oldChildren newChildren
            { st with patches := st.patches ++ ps,
                      oldHead := st.oldHead + 1, newTail := st.newTail - 1 }
      else stepTailHead f parentDom oldChildren newChildren st ohv otv nhv ntv
    | _, _ => stepTailHead f parentDom oldChildren newChildren st ohv otv nhv ntv
termination_by structural fuel

/-- Branch (d) of the loop: old-tail/new-head key match — diff, retreat
old-tail, advance new-head.  The source records no move in this branch
either.  Falls through to the else-branch otherwise. -/
def stepTailHead (fuel : Nat) (parentDom : Nat)
    (oldChildren newChildren : List VNode) (st : LoopSt)
    (ohv otv nhv ntv : Option VNode) : Option LoopSt :=
  match fuel with
  | 0 => none
  | Nat.succ f =>
    match otv, nhv with
    | some ot, some nh =>
      if ot.key = nh.key then
        match diffNode f (some ot) (some nh) parentDom with
        | none => none
        | some ps =>
          childLoop f parentDom oldChildren newChildren
            { st with patches := st.patches ++ ps,
                      oldTail := st.oldTail - 1, newHead := st.newHead + 1 }
      else stepElse f parentDom oldChildren newChildren st nhv
    | _, _ => stepElse f parentDom oldChildren newChildren st nhv
termination_by structural fuel

/-- The else-branch of the loop: when a new-head node exists, look its key
up in the keyed table built from the original old children — on a hit,
diff against the match, tombstone the matched old slot, and record a `MOVE`
to the current new-head index (only when the matched old node has a
binding); on a miss (or a null key), emit `CREATE`.  In every case advance
new-head only. -/
def stepElse (fuel : Nat) (parentDom : Nat)
    (oldChildren newChildren : List VNode) (st : LoopSt)
    (nhv : Option VNode) : Option LoopSt :=
  match fuel with
  | 0 => none
  | Nat.succ f =>
    match nhv with
    | some nh =>
      match nh.key with
      | some k =>
        match keyedLookup oldChildren k with
        | some (mo, idx) =>
          match diffNode f (some mo) (some nh) parentDom with
          | none => none
          | some ps =>
            childLoop f parentDom oldChildren newChildren
              { st with oldCs := st.oldCs.set idx none,
                        patches := st.patches ++ ps,
                        moves := st.moves ++
                          (match mo.dom with
                           | some dn => [⟨MoveKind.move, dn, st.newHead⟩]
                           | none => []),
                        newHead := st.newHead + 1 }
        | none =>
          childLoop f parentDom oldChildren newChildren
            { st with patches := st.patches ++ [Patch.CREATE nh parentDom],
                      newHead := st.newHead + 1 }
      | none =>
        childLoop f parentDom oldChildren newChildren
          { st with patches := st.patches ++ [Patch.CREATE nh parentDom],
                    newHead := st.newHead + 1 }
    | none =>
      childLoop f parentDom oldChildren newChildren
        { st with newHead := st.newHead + 1 }
termination_by structural fuel

end

mutual

/-- Number of nodes in a tree (used only for the fuel budget). -/
def vsize : VNode → Nat
  | .mk _ _ cs _ _ => 1 + vsizeL cs

/-- Number of nodes in a forest. -/
def vsizeL : List VNode → Nat
  | [] => 0
  | c :: cs => vsize c + vsizeL cs

end

/-- Node count of an optional tree. -/
def vsizeO : Option VNode → Nat
  | none => 0
  | some v => vsize v

/-- Fuel policy for the exported `diff`: generous in the total size of both
trees.  Terminating runs of the source algorithm complete within this
budget on the inputs considered here; a `none` result signals that the
loop cannot reach its exit condition (divergence of the source). -/
def diffFuel (oldVNode newVNode : Option VNode) : Nat :=
  16 * (vsizeO oldVNode + vsizeO newVNode) + 16

/-- `diff` of diff.ts: runs `diffNode` on the two roots and returns the
accumulated patch list (in push order). -/
def diff (oldVNode newVNode : Option VNode) (parentDom : Nat) :
    Option (List Patch) :=
  diffNode (diffFuel oldVNode newVNode) oldVNode newVNode parentDom

/-- A child argument to `h` in vdom.ts: a VNode, a string, a number, a
boolean, or null/undefined.  (`children.flat()` flattens one level of
nested arrays first; the model takes the already-flattened list.) -/
inductive HChild : Type where
  | vn : VNode → HChild
  | str : String → HChild
  | num : Int → HChild
  | boolc : Bool → HChild
  | nullc : HChild

/-- `h` of vdom.ts: normalizes each child — null/undefined/booleans become
an empty text node `{ type: null, props: {}, children: [] }`, strings and
numbers become text nodes carrying `nodeValue`, VNodes pass through — and
builds the VNode with `props || {}` and no binding. -/
def h (ty : VNodeType) (props : Option (List (String × String)))
    (children : List HChild) (key : Option String) : VNode :=
  let normalizedChildren : List VNode := children.map (fun child =>
    match child with
    | .nullc => VNode.mk VNodeType.nullType [] [] none none
    | .boolc _ => VNode.mk VNodeType.nullType [] [] none none
    | .str s => VNode.mk VNodeType.nullType [("nodeValue", s)] [] none none
    | .num n =>
      VNode.mk VNodeType.nullType [("nodeValue", toString n)] [] none none
    | .vn v => v)
  VNode.mk ty (props.getD []) normalizedChildren key none

/-!
## The reactive core (src/runtime/src/core/atom.ts)

Atoms and Effects are identified by natural numbers; the module-level
mutable variables (`consumerStack`, `currentConsumer`, `pendingAtoms`,
`isBatchScheduled`, `globalEpoch`) and every object's private fields live
in one explicit state record `RState`.  `currentConsumer` is always the
top of the stack (`setCurrentConsumer` recomputes it from the stack after
every push/pop), so only the stack is carried.  Atom values are modelled
as `Int`, for which the structural-equality helper `_isEqual` degenerates
to its `a === b` fast path.  An Effect's function is modelled as a list of
commands: read an atom (and log the observed value), throw, or construct
and run a nested Effect.  Exceptions are propagated as an explicit `Bool`
alongside the state ("threw"); `try/finally` blocks apply their finaliser
to the state before the flag propagates.  Two observation-only logs —
`execLog` (one entry per invocation of an Effect's function) and `readLog`
(one entry per `get()` performed inside an Effect) — record what user code
would observe; no source behaviour depends on them.
-/

/-- A tracking consumer: an `Atom` or an `AtomEffect` (the
`Atom<any> | AtomEffect` union of atom.ts). -/
inductive Consumer : Type where
  | atomC : Nat → Consumer
  | effectC : Nat → Consumer
deriving DecidableEq, Repr

/-- One command of an Effect's function `_fn`. -/
inductive FCmd : Type where
  | readAtom : Nat → FCmd
  | throwErr : FCmd
  | newEffect : Nat → List FCmd → FCmd

/-- Private fields of one `Atom`: `_value`, `_dependents` (an
insertion-ordered map from consumer to its registration-order stamp),
`_dependencies` (likewise, atom keys only), `_isDirty`,
`_lastChangedEpoch`. -/
structure AtomState : Type where
  value : Int
  dependents : List (Consumer × Nat)
  dependencies : List (Nat × Nat)
  isDirty : Bool
  lastChangedEpoch : Nat

/-- Private fields of one `AtomEffect`: `_deps` (a `Set`, insertion
ordered), `_fn`, `_isDisposed`. -/
structure EffectState : Type where
  deps : List Nat
  fn : List FCmd
  isDisposed : Bool

/-- The whole mutable state of the atom.ts module. -/
structure RState : Type where
  atoms : Nat → AtomState
  effects : Nat → EffectState
  consumerStack : List Consumer
  pendingAtoms : List Nat
  isBatchScheduled : Bool
  globalEpoch : Nat
  execLog : List Nat
  readLog : List (Nat × Nat × Int)

/-- Update one atom's fields. -/
def updAtom (a : Nat) (f : AtomState → AtomState) (s : RState) : RState :=
  { s with atoms := fun b => if b = a then f (s.atoms b) else s.atoms b }

/-- Update one effect's fields. -/
def updEffect (e : Nat) (f : EffectState → EffectState) (s : RState) :
    RState :=
  { s with effects := fun e2 => if e2 = e then f (s.effects e2) else s.effects e2 }

/-- `currentConsumer`: always the top of the consumer stack. -/
def currentConsumer (s : RState) : Option Consumer :=
  s.consumerStack.head?

/-- `setCurrentConsumer` of atom.ts: a non-null argument is pushed; a null
argument pops (when the stack is non-empty); `currentConsumer` is then the
new top.  Note that restoring a previous non-null consumer therefore
pushes rather than pops. -/
def setCurrentConsumer (c : Option Consumer) (s : RState) : RState :=
  match c with
  | some c2 => { s with consumerStack := c2 :: s.consumerStack }
  | none => { s with consumerStack := s.consumerStack.tail }

/-- `Atom._addDependent`: insert the consumer into `_dependents` (if
absent) stamped with `globalEpoch++`. -/
def addDependent (a : Nat) (dep : Consumer) (s : RState) : RState :=
  if (s.atoms a).dependents.any (fun p => decide (p.1 = dep)) then s
  else
    let s1 := updAtom a (fun st =>
      { st with dependents := st.dependents ++ [(dep, s.globalEpoch)] }) s
    { s1 with globalEpoch := s1.globalEpoch + 1 }

/-- `Atom._removeDependent`: delete the consumer from `_dependents`. -/
def removeDependent (a : Nat) (dep : Consumer) (s : RState) : RState :=
  updAtom a (fun st =>
    { st with dependents :=
        st.dependents.filter (fun p => !(decide (p.1 = dep))) }) s

/-- `Atom._addDependency` (consumer side of a read by an Atom): record the
dependency (if absent) stamped with `globalEpoch++`, then register the
reverse edge via `_addDependent`. -/
def atomAddDependency (b a : Nat) (s : RState) : RState :=
  if (s.atoms b).dependencies.any (fun p => decide (p.1 = a)) then s
  else
    let s1 := updAtom b (fun st =>
      { st with dependencies := st.dependencies ++ [(a, s.globalEpoch)] }) s
    let s2 := { s1 with globalEpoch := s1.globalEpoch + 1 }
    addDependent a (Consumer.atomC b) s2

/-- `AtomEffect._addDependency`: add the atom to `_deps` (if absent) and
register the reverse edge via `_addDependent`. -/
def effectAddDependency (e a : Nat) (s : RState) : RState :=
  if a ∈ (s.effects e).deps then s
  else
    let s1 := updEffect e (fun st => { st with deps := st.deps ++ [a] }) s
    addDependent a (Consumer.effectC e) s1

/-- `Atom.get`: if a consumer is active, register the bidirectional edge
(no further checks — in particular no cycle check); return the value. -/
def atomGet (a : Nat) (s : RState) : RState × Int :=
  let s1 :=
    match currentConsumer s with
    | some (Consumer.atomC b) => atomAddDependency b a s
    | some (Consumer.effectC e) => effectAddDependency e a s
    | none => s
  (s1, (s1.atoms a).value)

/-- `Atom.peek`: the value, with no registration. -/
def atomPeek (a : Nat) (s : RState) : Int :=
  (s.atoms a).value

/-- The `newValue | ((prev) => newValue)` argument of `Atom.set`. -/
inductive SetArg : Type where
  | val : Int → SetArg
  | updater : (Int → Int) → SetArg

/-- Resolution of the final value from a `set` argument. -/
def resolveSetArg (arg : SetArg) (prev : Int) : Int :=
  match arg with
  | .val v => v
  | .updater f => f prev

/-- `Atom._isEqual` restricted to the scalar values of the model: the
`a === b` fast path decides it (`Int` is not an object, so neither the
null checks nor the serialisation fallback are reached). -/
def isEqualVal (a b : Int) : Bool := a == b

/-- `scheduleFlush`: request one deferred flush if none is scheduled.  (The
queued microtask itself is modelled by applying `flushPendingAtoms` after
the synchronous turn.) -/
def scheduleFlush (s : RState) : RState :=
  if s.isBatchScheduled then s else { s with isBatchScheduled := true }

/-- `Atom.set`: resolve the final value; when `_isEqual` rejects it, do
nothing at all; otherwise store it, mark dirty, stamp
`_lastChangedEpoch = ++globalEpoch`, add the atom to the pending set (a
`Set`: no duplicates), and request a flush. -/
def atomSet (a : Nat) (arg : SetArg) (s : RState) : RState :=
  let finalValue := resolveSetArg arg (s.atoms a).value
  if isEqualVal (s.atoms a).value finalValue then s
  else
    let s1 := updAtom a (fun st =>
      { st with value := finalValue, isDirty := true,
                lastChangedEpoch := s.globalEpoch + 1 }) s
    let s2 := { s1 with globalEpoch := s.globalEpoch + 1 }
    let s3 := { s2 with pendingAtoms :=
      if a ∈ s2.pendingAtoms then s2.pendingAtoms
      else s2.pendingAtoms ++ [a] }
    scheduleFlush s3

/-- The `for (dep of _deps) dep._removeDependent(this); _deps.clear()`
prologue of `AtomEffect._execute`. -/
def clearEffectDeps (e : Nat) (s : RState) : RState :=
  let s1 := (s.effects e).deps.foldl
    (fun acc a => removeDependent a (Consumer.effectC e) acc) s
  updEffect e (fun st => { st with deps := [] }) s1

/-- Initialise a fresh `AtomEffect` object (`_deps` empty, `_fn` set,
not disposed), as the constructor does before calling `_execute`. -/
def initEffect (e : Nat) (body : List FCmd) (s : RState) : RState :=
  updEffect e (fun _ => ⟨[], body, false⟩) s

mutual

/-- Run the body of an Effect's `_fn`: execute the commands in order; a
raised exception skips the rest of the body and propagates. -/
def runFn (e : Nat) (cmds : List FCmd) (s : RState) : RState × Bool :=
  match cmds with
  | [] => (s, false)
  | c :: rest =>
    let r := runCmd e c s
    if r.2 then (r.1, true) else runFn e rest r.1
termination_by structural cmds

/-- One command of an Effect's `_fn`.  `readAtom` performs `Atom.get` and
logs the observed value; `throwErr` raises (state so far is kept);
`newEffect` transcribes `new AtomEffect(fn)` — the constructor stores
`_fn` and immediately runs `_execute`: the disposed guard (trivially false
on a fresh object), the clear-and-retrack prologue, saving the current
consumer, pushing the new one, the nested body, and the `finally` that
passes the saved previous consumer back to `setCurrentConsumer`.  A throw
in the nested body propagates after that `finally`. -/
def runCmd (e : Nat) (c : FCmd) (s : RState) : RState × Bool :=
  match c with
  | FCmd.readAtom a =>
    let r := atomGet a s
    ({ r.1 with readLog := r.1.readLog ++ [(e, a, r.2)] }, false)
  | FCmd.throwErr => (s, true)
  | FCmd.newEffect e2 body =>
    let s1 := initEffect e2 body s
    if (s1.effects e2).isDisposed then (s1, false)
    else
      let s2 := clearEffectDeps e2 s1
      let prev := currentConsumer s2
      let s3 := setCurrentConsumer (some (Consumer.effectC e2)) s2
      let s4 := { s3 with execLog := s3.execLog ++ [e2] }
      let r := runFn e2 body s4
      let s5 := setCurrentConsumer prev r.1
      (s5, r.2)
termination_by structural c

end

/-- `AtomEffect._execute` (as called by `run()` and by notification): the
disposed guard, the clear-and-retrack prologue, saving `currentConsumer`,
pushing this effect, running `_fn` from the effect's stored field, and the
`finally` that hands the saved previous consumer to `setCurrentConsumer`;
an exception from `_fn` propagates to the caller after the `finally`. -/
def effectExecute (e : Nat) (s : RState) : RState × Bool :=
  if (s.effects e).isDisposed then (s, false)
  else
    let s1 := clearEffectDeps e s
    let prev := currentConsumer s1
    let s2 := setCurrentConsumer (some (Consumer.effectC e)) s1
    let s3 := { s2 with execLog := s2.execLog ++ [e] }
    let r := runFn e (s.effects e).fn s3
    let s4 := setCurrentConsumer prev r.1
    (s4, r.2)

/-- `new AtomEffect(fn)` at top level: store the function, then run
`_execute` once. -/
def newEffectOp (e : Nat) (body : List FCmd) (s : RState) : RState × Bool :=
  effectExecute e (initEffect e body s)

/-- Stable insertion of one element by a numeric key (inserted after equal
keys). -/
def insertByKey {α : Type} (keyf : α → Nat) (x : α) : List α → List α
  | [] => [x]
  | y :: ys => if keyf x < keyf y then x :: y :: ys else y :: insertByKey keyf x ys

/-- Stable sort by a numeric key, modelling JS `Array.prototype.sort` with
a numeric comparator. -/
def sortByKey {α : Type} (keyf : α → Nat) : List α → List α
  | [] => []
  | x :: xs => insertByKey keyf x (sortByKey keyf xs)

/-- The `for (dependent of sortedDependents)` loop of
`Atom._notifyDependents`: an Atom dependent gets `_pull()` (a stub on base
atoms), an Effect dependent gets `run()`; an exception aborts the loop and
propagates. -/
def notifyList (l : List Consumer) (s : RState) : RState × Bool :=
  match l with
  | [] => (s, false)
  | Consumer.atomC _ :: rest => notifyList rest s
  | Consumer.effectC e :: rest =>
    let r := effectExecute e s
    if r.2 then (r.1, true) else notifyList rest r.1

/-- `Atom._notifyDependents`: when dirty, clear the dirty flag, snapshot
the dependents sorted by registration order, and run them. -/
def notifyDependents (a : Nat) (s : RState) : RState × Bool :=
  if (s.atoms a).isDirty then
    let s1 := updAtom a (fun st => { st with isDirty := false }) s
    notifyList
      ((sortByKey (fun p => p.2) ((s1.atoms a).dependents)).map (fun p => p.1))
      s1
  else (s, false)

/-- The `for (atom of atomsToNotify)` loop of `flushPendingAtoms`; an
exception aborts the loop and propagates out of the flush. -/
def flushList (l : List Nat) (s : RState) : RState × Bool :=
  match l with
  | [] => (s, false)
  | a :: rest =>
    let r := notifyDependents a s
    if r.2 then (r.1, true) else flushList rest r.1

/-- `flushPendingAtoms`: reset the scheduled flag, snapshot the pending set
sorted by `_lastChangedEpoch` ascending, clear the pending set, notify each
atom in that order.  The returned flag reports an exception escaping the
flush (nothing in the source catches it). -/
def flushPendingAtoms (s : RState) : RState × Bool :=
  let s1 := { s with isBatchScheduled := false }
  let toNotify :=
    sortByKey (fun a => (s1.atoms a).lastChangedEpoch) s1.pendingAtoms
  let s2 := { s1 with pendingAtoms := [] }
  flushList toNotify s2

/-- A synchronous burst of `set()` calls (one turn's writes, in order). -/
def applyWrites (ws : List (Nat × SetArg)) (s : RState) : RState :=
  ws.foldl (fun acc w => atomSet w.1 w.2 acc) s

/-- A quiescent, subscribed configuration: `nEff` Effects, where Effect `e`
reads exactly the one atom `d e` (its function is a single `get` of that
atom), each already subscribed from its initial construction run; no
consumer active, nothing pending, no flush scheduled, nothing dirty. -/
def mkState (d : Nat → Nat) (nEff : Nat) (v0 : Nat → Int) : RState where
  atoms := fun a =>
    ⟨v0 a,
      ((List.range nEff).filter (fun e => decide (d e = a))).map
        (fun e => (Consumer.effectC e, e)),
      [], false, 0⟩
  effects := fun e =>
    if e < nEff then ⟨[d e], [FCmd.readAtom (d e)], false⟩ else ⟨[], [], false⟩
  consumerStack := []
  pendingAtoms := []
  isBatchScheduled := false
  globalEpoch := nEff
  execLog := []
  readLog := []

/-!
## Concrete configurations used by the claims
-/

/-- A wholly quiescent module state: no consumers, no subscriptions,
nothing pending. -/
def emptyRState : RState where
  atoms := fun _ => ⟨0, [], [], false, 0⟩
  effects := fun _ => ⟨[], [], false⟩
  consumerStack := []
  pendingAtoms := []
  isBatchScheduled := false
  globalEpoch := 0
  execLog := []
  readLog := []

/-- A keyed old child carrying a committed binding. -/
def c2Child : VNode := .mk (.tagName "span") [] [] (some "a") (some 2)

/-- A committed tree: a bound div with one bound keyed child. -/
def c2Tree : VNode := .mk (.tagName "div") [] [c2Child] none (some 1)

/-- A keyed, bound old child (sole member of an old list whose new list is
empty). -/
def c3OldChild : VNode := .mk (.tagName "li") [] [] (some "a") (some 1)

/-- The `diffChildren` loop state reached after `n` iterations on
`old = [c3OldChild]`, `new = []`: only `newHead` has advanced. -/
def c3St (n : Nat) : LoopSt :=
  ⟨[some c3OldChild], 0, 0, n, -1, [], []⟩

/-- Old children `[{key:a},{key:b},{key:c}]`, committed (bound). -/
def c4OldA : VNode := .mk (.tagName "li") [] [] (some "a") (some 1)

/-- Old child with key b. -/
def c4OldB : VNode := .mk (.tagName "li") [] [] (some "b") (some 2)

/-- Old child with key c. -/
def c4OldC : VNode := .mk (.tagName "li") [] [] (some "c") (some 3)

/-- Fresh render of the child with key a. -/
def c4NewA : VNode := .mk (.tagName "li") [] [] (some "a") none

/-- Fresh render of the child with key b. -/
def c4NewB : VNode := .mk (.tagName "li") [] [] (some "b") none

/-- Fresh render of the child with key c. -/
def c4NewC : VNode := .mk (.tagName "li") [] [] (some "c") none

/-- The committed parent with children `[a, b, c]`. -/
def c4Old : VNode := .mk (.tagName "ul") [] [c4OldA, c4OldB, c4OldC] none (some 9)

/-- The newly rendered parent with children `[c, a, b]`. -/
def c4New : VNode := .mk (.tagName "ul") [] [c4NewC, c4NewA, c4NewB] none none

/-- Pre-flush state for the failure-isolation scenario: atoms 0 and 1 are
dirty and pending (write order: atom 0 first), Effect 0 reads atom 0 and
then throws, Effect 1 (independent) reads atom 1; both are subscribed. -/
def c1State (va vb : Int) : RState where
  atoms := fun a =>
    if a = 0 then ⟨va, [(Consumer.effectC 0, 0)], [], true, 1⟩
    else if a = 1 then ⟨vb, [(Consumer.effectC 1, 1)], [], true, 2⟩
    else ⟨0, [], [], false, 0⟩
  effects := fun e =>
    if e = 0 then ⟨[0], [FCmd.readAtom 0, FCmd.throwErr], false⟩
    else if e = 1 then ⟨[1], [FCmd.readAtom 1], false⟩
    else ⟨[], [], false⟩
  consumerStack := []
  pendingAtoms := [0, 1]
  isBatchScheduled := true
  globalEpoch := 3
  execLog := []
  readLog := []

/-- A subscribed configuration in which one Effect depends on two atoms:
Effect 0 reads atoms 0 and 1, and is registered as a dependent of both. -/
def c5CexState : RState where
  atoms := fun a =>
    if a = 0 then ⟨0, [(Consumer.effectC 0, 0)], [], false, 0⟩
    else if a = 1 then ⟨0, [(Consumer.effectC 0, 1)], [], false, 0⟩
    else ⟨0, [], [], false, 0⟩
  effects := fun e =>
    if e = 0 then ⟨[0, 1], [FCmd.readAtom 0, FCmd.readAtom 1], false⟩
    else ⟨[], [], false⟩
  consumerStack := []
  pendingAtoms := []
  isBatchScheduled := false
  globalEpoch := 2
  execLog := []
  readLog := []

/-- A state in which atom 0 is itself the active consumer (it sits on the
active-consumer stack, as a derived atom being computed would). -/
def c6State : RState :=
  { emptyRState with consumerStack := [Consumer.atomC 0] }

/-- A state in which Effect 0 is the active consumer. -/
def c6WitState : RState :=
  { emptyRState with consumerStack := [Consumer.effectC 0] }

/-- The edge `Atom.get` is supposed to create: the atom is recorded on the
consumer's dependency side. -/
def consumerHasDep (c : Consumer) (a : Nat) (s : RState) : Prop :=
  match c with
  | Consumer.atomC b => ∃ p ∈ (s.atoms b).dependencies, p.1 = a
  | Consumer.effectC e => a ∈ (s.effects e).deps

/-- An outer Effect (id 0) whose function constructs and runs a nested
Effect (id 1) that reads atom 0. -/
def c9Body : List FCmd := [FCmd.newEffect 1 [FCmd.readAtom 0]]

/-- The Effects subscribed to atom `b` in a `mkState`-style configuration. -/
def subsOf (d : Nat → Nat) (nEff : Nat) (b : Nat) : List Consumer :=
  ((List.range nEff).filter (fun e => decide (d e = b))).map Consumer.effectC

/-- The invariant a `mkState` configuration keeps through a flush: no
consumer is active, every live Effect has its single dependency and
single-read function and is not disposed, and every atom's dependents are
(up to order) precisely its subscribed Effects. -/
structure GoodCfg (d : Nat → Nat) (nEff : Nat) (s : RState) : Prop where
  stack : s.consumerStack = []
  effs : ∀ e, e < nEff →
    (s.effects e).deps = [d e] ∧ (s.effects e).fn = [FCmd.readAtom (d e)] ∧
    (s.effects e).isDisposed = false
  deps : ∀ b, ((s.atoms b).dependents.map (fun p => p.1)).Perm (subsOf d nEff b)

/-!
## Theorems settling the claims
-/

/-- C2 (the claim fails on the code): for the committed tree `c2Tree` —
a bound div whose single keyed child is bound — `diff(T, T)` is NOT the
empty patch list: the final removal loop of `diffChildren` scans the whole
old-children array, in which children matched by the head/head branch were
never tombstoned, so the matched (identical) child is removed.  The code
emits `[REMOVE 2]`. -/
theorem c2_diff_self_not_empty :
    diff (some c2Tree) (some c2Tree) 0 = some [Patch.REMOVE 2] := by rfl

/-- Helper for C3: on `old = [c3OldChild]`, `new = []`, every function of
the loop's branch cascade returns `none` for every fuel — after the new
range is exhausted no branch consumes the old range, the else-branch only
advances `newHead`, and the loop condition `oldHead ≤ oldTail` stays true
forever. -/
theorem c3_chain (f : Nat) :
    (∀ n, childLoop f 0 [c3OldChild] [] (c3St n) = none) ∧
    (∀ n, stepTailTail f 0 [c3OldChild] [] (c3St n)
        (some c3OldChild) (some c3OldChild) none none = none) ∧
    (∀ n, stepHeadTail f 0 [c3OldChild] [] (c3St n)
        (some c3OldChild) (some c3OldChild) none none = none) ∧
    (∀ n, stepTailHead f 0 [c3OldChild] [] (c3St n)
        (some c3OldChild) (some c3OldChild) none none = none) ∧
    (∀ n, stepElse f 0 [c3OldChild] [] (c3St n) none = none) := by
  induction f with
  | zero =>
    exact ⟨fun _ => rfl, fun _ => rfl, fun _ => rfl, fun _ => rfl, fun _ => rfl⟩
  | succ f ih =>
    obtain ⟨ihA, ihB, ihC, ihD, ihE⟩ := ih
    refine ⟨?_, ?_, ?_, ?_, ?_⟩
    · intro n
      have hn : ¬((n : Int) ≤ -1) := by omega
      have hB := ihB n
      simp only [c3St] at hB ⊢
      simp [childLoop, hn, hB]
    · intro n
      have hC := ihC n
      simp only [c3St] at hC ⊢
      simp [stepTailTail, hC]
    · intro n
      have hD := ihD n
      simp only [c3St] at hD ⊢
      simp [stepHeadTail, hD]
    · intro n
      have hE := ihE n
      simp only [c3St] at hE ⊢
      simp [stepTailHead, hE]
    · intro n
      have hA := ihA (n + 1)
      simp only [c3St] at hA ⊢
      simp [stepElse, hA]

/-- C3 (the claim fails on the code): with old children `[{key:a}]` (bound)
and new children `[]`, the keyed child-diff loop never terminates — for
every fuel, the loop fails to reach its exit condition, so `diffChildren`
yields no result at all (and in particular never emits the `REMOVE` for
the un-consumed old child).  In the source this is an infinite
`while` loop. -/
theorem c3_loop_diverges (fuel : Nat) :
    diffChildren fuel 0 [c3OldChild] [] = none := by
  cases fuel with
  | zero => rfl
  | succ f =>
    have h := (c3_chain f).1 0
    simp only [c3St] at h
    simp [diffChildren, h]

/-- C4 (the claim fails on the code): for old `[a, b, c]` (bound) and new
`[c, a, b]` of the same type, the code emits zero CREATE patches but three
REMOVE patches (the removal loop removes every matched, un-tombstoned old
child) and no REORDER_CHILDREN patch at all — the old-tail/new-head branch
records no move, so the move list stays empty. -/
theorem c4_reorder_behaviour :
    diff (some c4Old) (some c4New) 0 =
      some [Patch.REMOVE 1, Patch.REMOVE 2, Patch.REMOVE 3] := by rfl

/-- C10: whenever the old node exists but carries no binding (`_dom`
unset), `diff` silently emits no patches at all: the removal branch pushes
nothing without a binding, the type-mismatch branch pushes `REPLACE` only
under a binding, and the same-type branch bails out at its guard. -/
theorem c10_unbound_old_no_patches (o : VNode) (n : Option VNode)
    (pd : Nat) (hdom : o.dom = none) :
    diff (some o) n pd = some [] := by
  have hsucc : diffFuel (some o) n =
      (16 * (vsizeO (some o) + vsizeO n) + 15) + 1 := by
    simp only [diffFuel]
  rw [diff, hsucc]
  cases n with
  | none => simp [diffNode, hdom]
  | some n' =>
    by_cases hty : o.ty = n'.ty
    · simp [diffNode, hty, hdom]
    · simp [diffNode, hty, hdom]

/-- C10 witness: evaluating the theorem at an unbound div diffed against
`null`. -/
theorem c10_unbound_old_no_patches_witness :
    (VNode.mk (.tagName "div") [] [] none none).dom = none ∧
    diff (some (VNode.mk (.tagName "div") [] [] none none)) none 0 = some [] :=
  ⟨rfl, c10_unbound_old_no_patches (VNode.mk (.tagName "div") [] [] none none)
    none 0 rfl⟩

/-- C7 counterexample: a null child is NOT dropped — `h` produces an entry
for it, an empty text node `{type: null, props: {}, children: []}`; the
children list of `h("div", null, [null])` has one entry, not zero. -/
theorem c7_null_child_kept :
    (h (.tagName "div") none [HChild.nullc] none).children =
      [VNode.mk VNodeType.nullType [] [] none none] := by rfl

/-- C7 amended: `h` normalizes children one-for-one (the count is
preserved): every string or number child becomes a text node carrying
`nodeValue`; every null, undefined, or boolean child becomes an EMPTY text
node (an entry is kept, not dropped); VNode children pass through. -/
theorem c7_children_normalized (ty : VNodeType)
    (props : Option (List (String × String))) (cs : List HChild)
    (key : Option String) :
    ((h ty props cs key).children).length = cs.length ∧
    ∀ (i : Nat) (c : HChild), cs[i]? = some c →
      ((h ty props cs key).children)[i]? = some (match c with
        | HChild.vn v => v
        | HChild.str s =>
          VNode.mk VNodeType.nullType [("nodeValue", s)] [] none none
        | HChild.num n =>
          VNode.mk VNodeType.nullType [("nodeValue", toString n)] [] none none
        | HChild.boolc _ => VNode.mk VNodeType.nullType [] [] none none
        | HChild.nullc => VNode.mk VNodeType.nullType [] [] none none) := by
  constructor
  · simp [h, VNode.children]
  · intro i c hc
    simp only [h, VNode.children, List.getElem?_map, hc, Option.map_some]
    cases c <;> rfl

/-- C7 witness: the amended theorem applied to the single null child. -/
theorem c7_children_normalized_witness :
    ([HChild.nullc][0]? = some HChild.nullc) ∧
    ((h (.tagName "p") none [HChild.nullc] none).children)[0]? =
      some (VNode.mk VNodeType.nullType [] [] none none) :=
  ⟨rfl, (c7_children_normalized (.tagName "p") none [HChild.nullc] none).2
    0 HChild.nullc rfl⟩

/-- C6 counterexample: atom 0 is the active consumer (it is on the
active-consumer stack — exactly the situation the claim says is detected
and rejected), and `get()` on atom 0 nevertheless registers the edge: the
atom becomes its own dependent and its own dependency, and no diagnostic
of any kind is raised (`Atom.get` performs no stack check; no
DependencyCycleError exists in the module). -/
theorem c6_self_edge_registered :
    (((atomGet 0 c6State).1.atoms 0).dependents.map (fun p => p.1) =
      [Consumer.atomC 0]) ∧
    (((atomGet 0 c6State).1.atoms 0).dependencies.map (fun p => p.1) = [0]) := by
  constructor <;> rfl

/-- `_addDependent` touches only the target atom's `_dependents` (and the
epoch); it changes no atom's `_dependencies`. -/
theorem dependencies_addDependent (a2 : Nat) (c : Consumer) (s : RState)
    (b : Nat) :
    ((addDependent a2 c s).atoms b).dependencies = (s.atoms b).dependencies := by
  unfold addDependent
  split
  · rfl
  · by_cases hb : b = a2 <;> simp [updAtom, hb]

/-- `_addDependent` touches no effect's fields. -/
theorem effects_addDependent (a2 : Nat) (c : Consumer) (s : RState) :
    (addDependent a2 c s).effects = s.effects := by
  unfold addDependent
  split <;> rfl

/-- C6 amended: `get()` performs no cycle detection whatsoever — whenever
any consumer is active, the dependency edge is registered unconditionally
(present on the consumer's side afterwards) and nothing is rejected or
raised. -/
theorem c6_edge_always_registered (s : RState) (a : Nat) (c : Consumer)
    (hc : currentConsumer s = some c) :
    consumerHasDep c a ((atomGet a s).1) := by
  cases c with
  | atomC b =>
    simp only [atomGet, hc]
    by_cases hmem :
        (s.atoms b).dependencies.any (fun p => decide (p.1 = a)) = true
    · simp only [atomAddDependency, if_pos hmem, consumerHasDep]
      obtain ⟨p, hp, hpa⟩ := List.any_eq_true.mp hmem
      exact ⟨p, hp, of_decide_eq_true hpa⟩
    · simp only [atomAddDependency, if_neg hmem, consumerHasDep]
      rw [dependencies_addDependent]
      refine ⟨(a, s.globalEpoch), ?_, rfl⟩
      simp [updAtom]
  | effectC e =>
    simp only [atomGet, hc]
    by_cases hmem : a ∈ (s.effects e).deps
    · simp only [effectAddDependency, if_pos hmem, consumerHasDep]
      exact hmem
    · simp only [effectAddDependency, if_neg hmem, consumerHasDep]
      rw [effects_addDependent]
      simp [updEffect]

/-- C6 witness: the amended theorem applied with Effect 0 active and
atom 5 read. -/
theorem c6_edge_always_registered_witness :
    currentConsumer c6WitState = some (Consumer.effectC 0) ∧
    consumerHasDep (Consumer.effectC 0) 5 ((atomGet 5 c6WitState).1) :=
  ⟨rfl, c6_edge_always_registered c6WitState 5 (Consumer.effectC 0) rfl⟩

/-- C1 counterexample: in the pre-flush state `c1State 5 7` (two pending
atoms, Effect 0 reads atom 0 then throws, the independent Effect 1 reads
atom 1), the flush propagates the exception (nothing in
`flushPendingAtoms` or `_notifyDependents` catches, and no error sink
exists) and Effect 1 never runs: the execution log records only Effect 0. -/
theorem c1_sibling_effect_not_run :
    (flushPendingAtoms (c1State 5 7)).2 = true ∧
    (flushPendingAtoms (c1State 5 7)).1.execLog = [0] ∧
    ¬(1 ∈ (flushPendingAtoms (c1State 5 7)).1.execLog) := by
  refine ⟨rfl, rfl, ?_⟩
  decide

/-- C1 amended: an exception thrown inside an Effect's run is NOT caught
at the flush boundary — it propagates out of `flushPendingAtoms` (there is
no error sink), and the other, independent Effect due in the same flush
does not run: for all atom values, flushing `c1State va vb` reports the
escaped exception, records exactly one Effect execution (Effect 0, which
observed atom 0 and threw), and leaves the consumer stack restored. -/
theorem c1_throw_aborts_flush (va vb : Int) :
    (flushPendingAtoms (c1State va vb)).2 = true ∧
    (flushPendingAtoms (c1State va vb)).1.execLog = [0] ∧
    (flushPendingAtoms (c1State va vb)).1.readLog = [(0, 0, va)] ∧
    (flushPendingAtoms (c1State va vb)).1.consumerStack = [] := by
  refine ⟨rfl, rfl, rfl, rfl⟩

/-- C5 counterexample: an Effect that depends on two atoms written in the
same turn does not run "exactly once per flush": after `a.set(1); b.set(2)`
on `c5CexState` the single flush runs Effect 0 twice (once per dirty atom
it depends on), and its read log shows it observing both atoms twice. -/
theorem c5_two_dep_effect_runs_twice :
    (flushPendingAtoms
      (applyWrites [(0, SetArg.val 1), (1, SetArg.val 2)] c5CexState)).1.execLog
      = [0, 0] := by rfl

/-- C9 (the claim fails on the code): running an outer Effect (id 0) whose
function constructs a nested Effect (id 1) leaves the ambient consumer
stack corrupted instead of restored: starting from the empty stack, after
the outer construction completes the stack is `[effect 1, effect 0]` (the
inner execution's `finally` PUSHED the saved outer consumer instead of
popping, and the outer `finally` then popped the wrong entry), and
`currentConsumer` is left pointing at the inner effect. -/
theorem c9_nested_execute_corrupts_stack :
    (newEffectOp 0 c9Body emptyRState).1.consumerStack =
      [Consumer.effectC 1, Consumer.effectC 0] ∧
    currentConsumer (newEffectOp 0 c9Body emptyRState).1 =
      some (Consumer.effectC 1) := by
  exact ⟨rfl, rfl⟩

/-- C8: `set()` is change-gated.  If the resolved value is structurally
equal to the current one (for the scalar values of the model `_isEqual` is
`===`), the state is unchanged in every component — value, dirty flag,
`lastChangedEpoch`, pending set — and no flush is requested.  Otherwise the
value is stored, the atom marked dirty, `lastChangedEpoch` stamped with the
strictly increased (monotonic) global epoch, the atom enqueued into the
pending set, and a flush is scheduled. -/
theorem c8_set_change_gating (s : RState) (a : Nat) (arg : SetArg) :
    (isEqualVal (s.atoms a).value (resolveSetArg arg (s.atoms a).value) = true →
      atomSet a arg s = s) ∧
    (isEqualVal (s.atoms a).value (resolveSetArg arg (s.atoms a).value) = false →
      (s.atoms a).lastChangedEpoch ≤ s.globalEpoch →
      ((atomSet a arg s).atoms a).value = resolveSetArg arg (s.atoms a).value ∧
      ((atomSet a arg s).atoms a).isDirty = true ∧
      ((atomSet a arg s).atoms a).lastChangedEpoch = s.globalEpoch + 1 ∧
      (s.atoms a).lastChangedEpoch <
        ((atomSet a arg s).atoms a).lastChangedEpoch ∧
      s.globalEpoch < (atomSet a arg s).globalEpoch ∧
      a ∈ (atomSet a arg s).pendingAtoms ∧
      (atomSet a arg s).isBatchScheduled = true) := by
  constructor
  · intro hEq
    simp [atomSet, hEq]
  · intro hNe hMon
    have h1 : ((atomSet a arg s).atoms a).value =
        resolveSetArg arg (s.atoms a).value := by
      simp [atomSet, hNe, scheduleFlush, updAtom]
      split <;> simp [updAtom]
    constructor
    · exact h1
    constructor
    · simp [atomSet, hNe, scheduleFlush, updAtom]
      split <;> simp [updAtom]
    constructor
    · simp [atomSet, hNe, scheduleFlush, updAtom]
      split <;> simp [updAtom]
    constructor
    · have : ((atomSet a arg s).atoms a).lastChangedEpoch = s.globalEpoch + 1 := by
        simp [atomSet, hNe, scheduleFlush, updAtom]
        split <;> simp [updAtom]
      omega
    constructor
    · have : (atomSet a arg s).globalEpoch = s.globalEpoch + 1 := by
        simp [atomSet, hNe, scheduleFlush, updAtom]
        split <;> simp [updAtom]
      omega
    constructor
    · by_cases hp : a ∈ s.pendingAtoms <;>
        simp [atomSet, hNe, scheduleFlush, updAtom, hp] <;>
        split <;> simp [hp]
    · simp [atomSet, hNe, scheduleFlush, updAtom]
      split <;> simp_all

/-- C8 witness: the theorem applied to the quiescent state — an identical
write is a no-op, a changing write stores, dirties, stamps, enqueues and
schedules. -/
theorem c8_set_change_gating_witness :
    (atomSet 0 (SetArg.val 0) emptyRState = emptyRState) ∧
    ((atomSet 0 (SetArg.val 5) emptyRState).atoms 0).value = 5 ∧
    (0 ∈ (atomSet 0 (SetArg.val 5) emptyRState).pendingAtoms) ∧
    (atomSet 0 (SetArg.val 5) emptyRState).isBatchScheduled = true := by
  refine ⟨(c8_set_change_gating emptyRState 0 (SetArg.val 0)).1 (by decide),
    ?_, ?_, ?_⟩
  · exact ((c8_set_change_gating emptyRState 0 (SetArg.val 5)).2 (by decide)
      (by decide)).1
  · exact ((c8_set_change_gating emptyRState 0 (SetArg.val 5)).2 (by decide)
      (by decide)).2.2.2.2.2.1
  · exact ((c8_set_change_gating emptyRState 0 (SetArg.val 5)).2 (by decide)
      (by decide)).2.2.2.2.2.2

theorem any_after_filter_not (l : List (Consumer × Nat)) (c : Consumer) :
    (l.filter (fun p => !(decide (p.1 = c)))).any
      (fun p => decide (p.1 = c)) = false := by
  induction l with
  | nil => rfl
  | cons hd tl ih => by_cases hh : hd.1 = c <;> simp [hh, ih]

theorem effectAddDependency_eq (e x : Nat) (S : RState)
    (h1 : (S.effects e).deps = [])
    (h2 : (S.atoms x).dependents.any
      (fun p => decide (p.1 = Consumer.effectC e)) = false) :
    effectAddDependency e x S =
      { S with
          atoms := fun b =>
            if b = x then
              { S.atoms b with dependents :=
                  ((S.atoms b).dependents ++
                    [(Consumer.effectC e, S.globalEpoch)]) }
            else S.atoms b,
          effects := fun e2 =>
            if e2 = e then { S.effects e2 with deps := [x] }
            else S.effects e2,
          globalEpoch := S.globalEpoch + 1 } := by
  have hx : ¬ (x ∈ (S.effects e).deps) := by rw [h1]; simp
  simp only [effectAddDependency, hx, if_false, addDependent, updEffect,
    updAtom, h2, Bool.false_eq_true]
  simp only [RState.mk.injEq, and_true, true_and]
  funext e2
  by_cases he2 : e2 = e <;> simp [he2, h1]

theorem effectExecute_read (e x : Nat) (s : RState)
    (hdeps : (s.effects e).deps = [x])
    (hfn : (s.effects e).fn = [FCmd.readAtom x])
    (hdisp : (s.effects e).isDisposed = false)
    (hstack : s.consumerStack = []) :
    effectExecute e s =
      ({ s with
          atoms := fun b =>
            if b = x then
              { s.atoms b with dependents :=
                  ((s.atoms b).dependents.filter
                      (fun p => !(decide (p.1 = Consumer.effectC e))) ++
                    [(Consumer.effectC e, s.globalEpoch)]) }
            else s.atoms b,
          effects := fun e2 =>
            if e2 = e then { s.effects e2 with deps := [x] } else s.effects e2,
          consumerStack := [],
          globalEpoch := s.globalEpoch + 1,
          execLog := s.execLog ++ [e],
          readLog := s.readLog ++ [(e, x, (s.atoms x).value)] }, false) := by
  simp only [effectExecute, hdisp, Bool.false_eq_true, if_false,
    clearEffectDeps, hdeps, hfn, List.foldl_cons, List.foldl_nil,
    currentConsumer, hstack, setCurrentConsumer, runFn, runCmd, atomGet,
    removeDependent, updEffect, updAtom, initEffect, List.head?]
  rw [effectAddDependency_eq e x _ (by simp) (by simp [any_after_filter_not])]
  simp only [Prod.mk.injEq, RState.mk.injEq, List.tail_cons, and_true,
    true_and]
  refine ⟨funext fun b => ?_, funext fun e2 => ?_, ?_⟩
  · by_cases hb : b = x <;> simp [hb]
  · by_cases he2 : e2 = e <;> simp [he2]
  · simp

theorem mkState_good (d : Nat → Nat) (nEff : Nat) (v0 : Nat → Int) :
    GoodCfg d nEff (mkState d nEff v0) := by
  refine ⟨rfl, ?_, ?_⟩
  · intro e he
    simp [mkState, he]
  · intro b
    simp only [mkState, List.map_map]
    exact List.Perm.refl _

theorem insertByKey_perm {α : Type} (k : α → Nat) (x : α) (l : List α) :
    (insertByKey k x l).Perm (x :: l) := by
  induction l with
  | nil => exact List.Perm.refl _
  | cons y ys ih =>
    by_cases hk : k x < k y
    · simp [insertByKey, hk]
    · simp only [insertByKey, if_neg hk]
      exact (ih.cons y).trans (List.Perm.swap x y ys)

theorem sortByKey_perm {α : Type} (k : α → Nat) (l : List α) :
    (sortByKey k l).Perm l := by
  induction l with
  | nil => exact List.Perm.refl _
  | cons y ys ih =>
    exact (insertByKey_perm k y (sortByKey k ys)).trans (ih.cons y)

theorem count_range (e0 n : Nat) :
    (List.range n).count e0 = if e0 < n then 1 else 0 := by
  induction n with
  | zero => simp
  | succ n ih =>
    rw [List.range_succ, List.count_append]
    by_cases hh : e0 < n
    · have : e0 ≠ n := by omega
      simp [ih, hh, this, Nat.lt_succ_of_lt hh]
    · by_cases he : e0 = n
      · subst he
        simp [ih, hh]
      · have : ¬ (e0 < n + 1) := by omega
        simp [ih, hh, he, this]

theorem count_subsOf (d : Nat → Nat) (nEff e0 b : Nat) :
    (subsOf d nEff b).count (Consumer.effectC e0) =
      if e0 < nEff ∧ d e0 = b then 1 else 0 := by
  have hinj : Function.Injective Consumer.effectC := by
    intro a1 a2 hh
    injection hh
  unfold subsOf
  rw [List.count_map_of_injective _ _ hinj]
  by_cases h2 : d e0 = b
  · rw [List.count_filter (by simp [h2])]
    rw [count_range]
    by_cases h1 : e0 < nEff <;> simp [h1, h2]
  · have hz : ((List.range nEff).filter (fun e => decide (d e = b))).count e0
        = 0 := by
      rw [List.count_eq_zero]
      intro hmem
      have := List.of_mem_filter hmem
      simp at this
      exact h2 this
    rw [hz]
    simp [h2]

/-- `map fst` commutes with filtering on a fst-predicate. -/
theorem map_fst_filter (l : List (Consumer × Nat)) (c : Consumer) :
    (l.filter (fun p => !(decide (p.1 = c)))).map (fun p => p.1) =
      (l.map (fun p => p.1)).filter (fun q => !(decide (q = c))) := by
  induction l with
  | nil => rfl
  | cons hd tl ih => by_cases hh : hd.1 = c <;> simp [hh, ih]

/-- Removing the sole occurrence of `c` and appending it back is a
permutation. -/
theorem filter_append_perm_of_count_one {α : Type} [DecidableEq α]
    (l : List α) (c : α) (hc : l.count c = 1) :
    ((l.filter (fun q => !(decide (q = c)))) ++ [c]).Perm l := by
  induction l with
  | nil => simp at hc
  | cons hd tl ih =>
    by_cases hh : hd = c
    · subst hh
      rw [List.count_cons_self] at hc
      have htl : tl.count hd = 0 := by omega
      have hts : tl.filter (fun q => !(decide (q = hd))) = tl := by
        apply List.filter_eq_self.mpr
        intro a ha
        have hane : a ≠ hd := by
          intro hah
          subst hah
          rw [List.count_eq_zero] at htl
          exact htl ha
        simp [hane]
      have hfc : (hd :: tl).filter (fun q => !(decide (q = hd))) = tl := by
        simp [List.filter_cons, hts]
      rw [hfc]
      exact List.perm_append_singleton hd tl
    · have hch : ¬ (c = hd) := fun hx => hh hx.symm
      have hc2 : tl.count c = 1 := by
        rw [List.count_cons] at hc
        simp [hh] at hc
        exact hc
      have hfc : (hd :: tl).filter (fun q => !(decide (q = c))) =
          hd :: (tl.filter (fun q => !(decide (q = c)))) := by
        simp [List.filter_cons, hh]
      rw [hfc]
      simpa using ((ih hc2).cons hd)

theorem atomSet_preserves (a : Nat) (arg : SetArg) (s : RState) :
    (atomSet a arg s).consumerStack = s.consumerStack ∧
    (atomSet a arg s).effects = s.effects ∧
    (∀ b, ((atomSet a arg s).atoms b).dependents = (s.atoms b).dependents) ∧
    (atomSet a arg s).execLog = s.execLog ∧
    (atomSet a arg s).readLog = s.readLog := by
  by_cases hEq : isEqualVal (s.atoms a).value
      (resolveSetArg arg (s.atoms a).value) = true
  · simp [atomSet, hEq]
  · by_cases hsch : s.isBatchScheduled = true <;>
      exact ⟨by simp [atomSet, hEq, scheduleFlush, hsch, updAtom],
        by simp [atomSet, hEq, scheduleFlush, hsch, updAtom],
        fun b => by
          by_cases hb : b = a <;>
            simp [atomSet, hEq, scheduleFlush, hsch, updAtom, hb],
        by simp [atomSet, hEq, scheduleFlush, hsch, updAtom],
        by simp [atomSet, hEq, scheduleFlush, hsch, updAtom]⟩

theorem atomSet_pending_dirty (a : Nat) (arg : SetArg) (s : RState)
    (hp : ∀ b ∈ s.pendingAtoms, (s.atoms b).isDirty = true)
    (hnd : s.pendingAtoms.Nodup) :
    (∀ b ∈ (atomSet a arg s).pendingAtoms,
      ((atomSet a arg s).atoms b).isDirty = true) ∧
    (atomSet a arg s).pendingAtoms.Nodup := by
  by_cases hEq : isEqualVal (s.atoms a).value
      (resolveSetArg arg (s.atoms a).value) = true
  · have hid : atomSet a arg s = s := by simp [atomSet, hEq]
    rw [hid]
    exact ⟨hp, hnd⟩
  · have hpend : (atomSet a arg s).pendingAtoms =
        (if a ∈ s.pendingAtoms then s.pendingAtoms
         else s.pendingAtoms ++ [a]) := by
      by_cases hsch : s.isBatchScheduled = true <;>
        simp [atomSet, hEq, scheduleFlush, hsch, updAtom]
    have hdirty : ∀ b, ((atomSet a arg s).atoms b).isDirty =
        (if b = a then true else (s.atoms b).isDirty) := by
      intro b
      by_cases hsch : s.isBatchScheduled = true <;>
        by_cases hb : b = a <;>
          simp [atomSet, hEq, scheduleFlush, hsch, updAtom, hb]
    constructor
    · intro b hb
      rw [hdirty b]
      by_cases hba : b = a
      · simp [hba]
      · rw [if_neg hba]
        rw [hpend] at hb
        apply hp b
        by_cases hmem : a ∈ s.pendingAtoms
        · simpa [hmem] using hb
        · rw [if_neg hmem] at hb
          rcases List.mem_append.mp hb with h1 | h2
          · exact h1
          · exact absurd (List.mem_singleton.mp h2) hba
    · rw [hpend]
      by_cases hmem : a ∈ s.pendingAtoms
      · simpa [hmem] using hnd
      · rw [if_neg hmem]
        refine List.Nodup.append hnd (List.nodup_singleton a) ?_
        intro x hx1 hx2
        rw [List.mem_singleton] at hx2
        subst hx2
        exact hmem hx1

theorem applyWrites_preserves (ws : List (Nat × SetArg)) (s : RState) :
    (applyWrites ws s).consumerStack = s.consumerStack ∧
    (applyWrites ws s).effects = s.effects ∧
    (∀ b, ((applyWrites ws s).atoms b).dependents = (s.atoms b).dependents) ∧
    (applyWrites ws s).execLog = s.execLog ∧
    (applyWrites ws s).readLog = s.readLog := by
  induction ws generalizing s with
  | nil => exact ⟨rfl, rfl, fun b => rfl, rfl, rfl⟩
  | cons w ws ih =>
    have h1 := atomSet_preserves w.1 w.2 s
    have h2 := ih (atomSet w.1 w.2 s)
    refine ⟨?_, ?_, ?_, ?_, ?_⟩
    · rw [applyWrites, List.foldl_cons]
      rw [show (List.foldl (fun acc w => atomSet w.1 w.2 acc) (atomSet w.1 w.2 s) ws) = applyWrites ws (atomSet w.1 w.2 s) from rfl]
      rw [h2.1, h1.1]
    · rw [applyWrites, List.foldl_cons]
      rw [show (List.foldl (fun acc w => atomSet w.1 w.2 acc) (atomSet w.1 w.2 s) ws) = applyWrites ws (atomSet w.1 w.2 s) from rfl]
      rw [h2.2.1, h1.2.1]
    · intro b
      rw [applyWrites, List.foldl_cons]
      rw [show (List.foldl (fun acc w => atomSet w.1 w.2 acc) (atomSet w.1 w.2 s) ws) = applyWrites ws (atomSet w.1 w.2 s) from rfl]
      rw [h2.2.2.1 b, h1.2.2.1 b]
    · rw [applyWrites, List.foldl_cons]
      rw [show (List.foldl (fun acc w => atomSet w.1 w.2 acc) (atomSet w.1 w.2 s) ws) = applyWrites ws (atomSet w.1 w.2 s) from rfl]
      rw [h2.2.2.2.1, h1.2.2.2.1]
    · rw [applyWrites, List.foldl_cons]
      rw [show (List.foldl (fun acc w => atomSet w.1 w.2 acc) (atomSet w.1 w.2 s) ws) = applyWrites ws (atomSet w.1 w.2 s) from rfl]
      rw [h2.2.2.2.2, h1.2.2.2.2]

theorem applyWrites_pending_dirty (ws : List (Nat × SetArg)) (s : RState)
    (hp : ∀ b ∈ s.pendingAtoms, (s.atoms b).isDirty = true)
    (hnd : s.pendingAtoms.Nodup) :
    (∀ b ∈ (applyWrites ws s).pendingAtoms,
      ((applyWrites ws s).atoms b).isDirty = true) ∧
    (applyWrites ws s).pendingAtoms.Nodup := by
  induction ws generalizing s with
  | nil => exact ⟨hp, hnd⟩
  | cons w ws ih =>
    have h1 := atomSet_pending_dirty w.1 w.2 s hp hnd
    exact ih (atomSet w.1 w.2 s) h1.1 h1.2

theorem GoodCfg_applyWrites (d : Nat → Nat) (nEff : Nat)
    (ws : List (Nat × SetArg)) (s : RState) (hg : GoodCfg d nEff s) :
    GoodCfg d nEff (applyWrites ws s) := by
  have h := applyWrites_preserves ws s
  refine ⟨?_, ?_, ?_⟩
  · rw [h.1, hg.stack]
  · intro e he
    rw [h.2.1]
    exact hg.effs e he
  · intro b
    rw [h.2.2.1 b]
    exact hg.deps b

theorem notifyList_run (d : Nat → Nat) (nEff : Nat) (L : List Consumer)
    (s : RState) (hg : GoodCfg d nEff s)
    (hL : ∀ c ∈ L, ∃ e, c = Consumer.effectC e ∧ e < nEff) :
    (notifyList L s).2 = false ∧
    GoodCfg d nEff (notifyList L s).1 ∧
    (∀ e0, ((notifyList L s).1.execLog).count e0 =
      s.execLog.count e0 + L.count (Consumer.effectC e0)) ∧
    (∀ b, ((notifyList L s).1.atoms b).value = (s.atoms b).value) ∧
    (∀ b, ((notifyList L s).1.atoms b).isDirty = (s.atoms b).isDirty) ∧
    (∀ b, ((notifyList L s).1.atoms b).lastChangedEpoch =
      (s.atoms b).lastChangedEpoch) ∧
    (notifyList L s).1.pendingAtoms = s.pendingAtoms ∧
    (notifyList L s).1.isBatchScheduled = s.isBatchScheduled ∧
    (∀ p ∈ (notifyList L s).1.readLog, p ∈ s.readLog ∨
      ∃ e, e < nEff ∧ p = (e, d e, (s.atoms (d e)).value)) := by
  induction L generalizing s with
  | nil =>
    exact ⟨rfl, hg, fun e0 => by simp [notifyList], fun b => rfl, fun b => rfl,
      fun b => rfl, rfl, rfl, fun p hp => Or.inl hp⟩
  | cons c rest ih =>
    obtain ⟨e, hce, he⟩ := hL c (List.mem_cons_self c rest)
    subst hce
    obtain ⟨hdeps, hfn, hdisp⟩ := hg.effs e he
    have hkey := effectExecute_read e (d e) s hdeps hfn hdisp hg.stack
    have h2 : (effectExecute e s).2 = false := by rw [hkey]
    have hstack2 : (effectExecute e s).1.consumerStack = [] := by rw [hkey]
    have heff2 : ∀ e2, (effectExecute e s).1.effects e2 =
        if e2 = e then { s.effects e2 with deps := [d e] }
        else s.effects e2 := fun e2 => by rw [hkey]
    have hatoms2 : ∀ b, (effectExecute e s).1.atoms b =
        if b = d e then
          { s.atoms b with dependents :=
              ((s.atoms b).dependents.filter
                  (fun p => !(decide (p.1 = Consumer.effectC e))) ++
                [(Consumer.effectC e, s.globalEpoch)]) }
        else s.atoms b := fun b => by rw [hkey]
    have hexec2 : (effectExecute e s).1.execLog = s.execLog ++ [e] := by
      rw [hkey]
    have hread2 : (effectExecute e s).1.readLog =
        s.readLog ++ [(e, d e, (s.atoms (d e)).value)] := by rw [hkey]
    have hpend2 : (effectExecute e s).1.pendingAtoms = s.pendingAtoms := by
      rw [hkey]
    have hsch2 : (effectExecute e s).1.isBatchScheduled =
        s.isBatchScheduled := by rw [hkey]
    have hv2 : ∀ b, ((effectExecute e s).1.atoms b).value =
        (s.atoms b).value := by
      intro b
      rw [hatoms2 b]
      by_cases hb : b = d e <;> simp [hb]
    have hd2 : ∀ b, ((effectExecute e s).1.atoms b).isDirty =
        (s.atoms b).isDirty := by
      intro b
      rw [hatoms2 b]
      by_cases hb : b = d e <;> simp [hb]
    have hl2 : ∀ b, ((effectExecute e s).1.atoms b).lastChangedEpoch =
        (s.atoms b).lastChangedEpoch := by
      intro b
      rw [hatoms2 b]
      by_cases hb : b = d e <;> simp [hb]
    have hg2 : GoodCfg d nEff (effectExecute e s).1 := by
      refine ⟨hstack2, ?_, ?_⟩
      · intro e2 he2
        rw [heff2 e2]
        by_cases he2e : e2 = e
        · subst he2e
          exact ⟨by simp, by simpa using hfn, by simpa using hdisp⟩
        · rw [if_neg he2e]
          exact hg.effs e2 he2
      · intro b
        rw [hatoms2 b]
        by_cases hb : b = d e
        · rw [if_pos hb]
          have hcount : ((s.atoms b).dependents.map
              (fun p => p.1)).count (Consumer.effectC e) = 1 := by
            rw [(hg.deps b).count_eq, count_subsOf]
            simp [he, hb]
          have hmapeq : List.map (fun p => p.1)
              (AtomState.dependents { s.atoms b with dependents :=
                ((s.atoms b).dependents.filter
                    (fun p => !(decide (p.1 = Consumer.effectC e))) ++
                  [(Consumer.effectC e, s.globalEpoch)]) }) =
              ((s.atoms b).dependents.map (fun p => p.1)).filter
                (fun q => !(decide (q = Consumer.effectC e))) ++
              [Consumer.effectC e] := by
            simp [map_fst_filter]
          rw [hmapeq]
          exact (filter_append_perm_of_count_one _ _ hcount).trans (hg.deps b)
        · rw [if_neg hb]
          exact hg.deps b
    have hrest : ∀ c2 ∈ rest, ∃ e2, c2 = Consumer.effectC e2 ∧ e2 < nEff :=
      fun c2 hc2 => hL c2 (List.mem_cons_of_mem _ hc2)
    obtain ⟨ih1, ih2, ih3, ih4, ih5, ih6, ih7, ih8, ih9⟩ :=
      ih (effectExecute e s).1 hg2 hrest
    have hstep : notifyList (Consumer.effectC e :: rest) s =
        notifyList rest (effectExecute e s).1 := by
      simp only [notifyList, h2]
      simp
    rw [hstep]
    refine ⟨ih1, ih2, ?_, ?_, ?_, ?_, ?_, ?_, ?_⟩
    · intro e0
      rw [ih3 e0, hexec2]
      rw [List.count_append, List.count_cons]
      by_cases he0 : e0 = e
      · subst he0
        simp
        omega
      · have hne : ¬ (Consumer.effectC e0 = Consumer.effectC e) := by
          simp [he0]
        simp [he0, hne]
        omega
    · intro b
      rw [ih4 b, hv2 b]
    · intro b
      rw [ih5 b, hd2 b]
    · intro b
      rw [ih6 b, hl2 b]
    · rw [ih7, hpend2]
    · rw [ih8, hsch2]
    · intro p hp
      rcases ih9 p hp with hin | ⟨e2, he2, hpe⟩
      · rw [hread2] at hin
        rcases List.mem_append.mp hin with h1 | h1e
        · exact Or.inl h1
        · refine Or.inr ⟨e, he, ?_⟩
          simpa using List.mem_singleton.mp h1e
      · refine Or.inr ⟨e2, he2, ?_⟩
        rw [hpe, hv2 (d e2)]

theorem notifyDependents_run (d : Nat → Nat) (nEff : Nat) (a : Nat)
    (s : RState) (hg : GoodCfg d nEff s)
    (hda : (s.atoms a).isDirty = true) :
    (notifyDependents a s).2 = false ∧
    GoodCfg d nEff (notifyDependents a s).1 ∧
    (∀ e0, ((notifyDependents a s).1.execLog).count e0 =
      s.execLog.count e0 + (if e0 < nEff ∧ d e0 = a then 1 else 0)) ∧
    (∀ b, ((notifyDependents a s).1.atoms b).value = (s.atoms b).value) ∧
    (∀ b, ((notifyDependents a s).1.atoms b).isDirty =
      (if b = a then false else (s.atoms b).isDirty)) ∧
    (notifyDependents a s).1.pendingAtoms = s.pendingAtoms ∧
    (notifyDependents a s).1.isBatchScheduled = s.isBatchScheduled ∧
    (∀ p ∈ (notifyDependents a s).1.readLog, p ∈ s.readLog ∨
      ∃ e, e < nEff ∧ p = (e, d e, (s.atoms (d e)).value)) := by
  have hstep : notifyDependents a s =
      notifyList
        ((sortByKey (fun p => p.2)
          (((updAtom a (fun st => { st with isDirty := false }) s).atoms
            a).dependents)).map (fun p => p.1))
        (updAtom a (fun st => { st with isDirty := false }) s) := by
    simp only [notifyDependents, hda, if_pos]
  have hatoms1 : ∀ b,
      ((updAtom a (fun st => { st with isDirty := false }) s).atoms b) =
      (if b = a then { s.atoms b with isDirty := false } else s.atoms b) := by
    intro b
    by_cases hb : b = a <;> simp [updAtom, hb]
  have hdeps1 : ∀ b,
      ((updAtom a (fun st => { st with isDirty := false }) s).atoms
        b).dependents = (s.atoms b).dependents := by
    intro b
    rw [hatoms1 b]
    by_cases hb : b = a <;> simp [hb]
  have hg1 : GoodCfg d nEff
      (updAtom a (fun st => { st with isDirty := false }) s) := by
    refine ⟨hg.stack, hg.effs, ?_⟩
    intro b
    rw [hdeps1 b]
    exact hg.deps b
  have hMperm :
      ((sortByKey (fun p => p.2)
        (((updAtom a (fun st => { st with isDirty := false }) s).atoms
          a).dependents)).map (fun p => p.1)).Perm (subsOf d nEff a) := by
    rw [hdeps1 a]
    exact ((sortByKey_perm _ _).map _).trans (hg.deps a)
  have hM : ∀ c ∈ ((sortByKey (fun p => p.2)
      (((updAtom a (fun st => { st with isDirty := false }) s).atoms
        a).dependents)).map (fun p => p.1)),
      ∃ e, c = Consumer.effectC e ∧ e < nEff := by
    intro c hc
    have hc2 := hMperm.mem_iff.mp hc
    unfold subsOf at hc2
    obtain ⟨e, he, hce⟩ := List.mem_map.mp hc2
    exact ⟨e, hce.symm, by
      have := List.mem_filter.mp he
      exact List.mem_range.mp this.1⟩
  obtain ⟨n1, n2, n3, n4, n5, n6, n7, n8, n9⟩ :=
    notifyList_run d nEff _ _ hg1 hM
  rw [hstep]
  refine ⟨n1, n2, ?_, ?_, ?_, ?_, ?_, ?_⟩
  · intro e0
    rw [n3 e0]
    have hc1 : ((updAtom a (fun st => { st with isDirty := false })
        s).execLog).count e0 = s.execLog.count e0 := by
      simp [updAtom]
    rw [hc1, hMperm.count_eq, count_subsOf]
  · intro b
    rw [n4 b, hatoms1 b]
    by_cases hb : b = a <;> simp [hb]
  · intro b
    rw [n5 b, hatoms1 b]
    by_cases hb : b = a <;> simp [hb]
  · rw [n7]
    simp [updAtom]
  · rw [n8]
    simp [updAtom]
  · intro p hp
    rcases n9 p hp with h1 | ⟨e, he, hpe⟩
    · left
      simpa [updAtom] using h1
    · right
      refine ⟨e, he, ?_⟩
      rw [hpe, hatoms1 (d e)]
      by_cases hb : d e = a <;> simp [hb]

theorem flushList_run (d : Nat → Nat) (nEff : Nat) (l : List Nat)
    (s : RState) (hg : GoodCfg d nEff s) (hnd : l.Nodup)
    (hdirty : ∀ a ∈ l, (s.atoms a).isDirty = true) :
    (flushList l s).2 = false ∧
    (∀ e0, ((flushList l s).1.execLog).count e0 =
      s.execLog.count e0 + (if e0 < nEff ∧ d e0 ∈ l then 1 else 0)) ∧
    (∀ b, ((flushList l s).1.atoms b).value = (s.atoms b).value) ∧
    (∀ p ∈ (flushList l s).1.readLog, p ∈ s.readLog ∨
      ∃ e, e < nEff ∧ p = (e, d e, (s.atoms (d e)).value)) := by
  induction l generalizing s with
  | nil =>
    exact ⟨rfl, fun e0 => by simp [flushList], fun b => rfl,
      fun p hp => Or.inl hp⟩
  | cons a rest ih =>
    have hna : a ∉ rest := (List.nodup_cons.mp hnd).1
    obtain ⟨m1, m2, m3, m4, m5, m6, m7, m8⟩ :=
      notifyDependents_run d nEff a s hg (hdirty a (List.mem_cons_self a rest))
    have hstep : flushList (a :: rest) s =
        flushList rest (notifyDependents a s).1 := by
      simp only [flushList, m1]
      simp
    have hdirty2 : ∀ b ∈ rest,
        (((notifyDependents a s).1).atoms b).isDirty = true := by
      intro b hb
      rw [m5 b]
      have hbna : ¬ (b = a) := fun hba => hna (hba ▸ hb)
      rw [if_neg hbna]
      exact hdirty b (List.mem_cons_of_mem _ hb)
    obtain ⟨f1, f2, f3, f4⟩ := ih (notifyDependents a s).1 m2
      (List.nodup_cons.mp hnd).2 hdirty2
    rw [hstep]
    refine ⟨f1, ?_, ?_, ?_⟩
    · intro e0
      rw [f2 e0, m3 e0]
      by_cases h1 : e0 < nEff
      · by_cases h2 : d e0 = a
        · have h3 : ¬ (d e0 ∈ rest) := h2 ▸ hna
          have h4 : d e0 ∈ a :: rest := by simp [h2]
          simp [h1, h2, h3, h4, hna]
        · by_cases h3 : d e0 ∈ rest
          · have h4 : d e0 ∈ a :: rest := List.mem_cons_of_mem _ h3
            simp [h1, h2, h3, h4]
          · have h4 : ¬ (d e0 ∈ a :: rest) := by
              simp [h2, h3]
            simp [h1, h2, h3, h4]
      · simp [h1]
    · intro b
      rw [f3 b, m4 b]
    · intro p hp
      rcases f4 p hp with h1 | ⟨e, he, hpe⟩
      · rcases m8 p h1 with h2 | ⟨e, he, hpe⟩
        · exact Or.inl h2
        · exact Or.inr ⟨e, he, hpe⟩
      · refine Or.inr ⟨e, he, ?_⟩
        rw [hpe, m4 (d e)]

/-- C5 amended: restricted to independent atoms (each Effect depends on
exactly one atom — the restriction the spec's own wording carries), the
claim holds: for ANY subscribed configuration `mkState d nEff v0` and ANY
sequence of `set()` calls within one synchronous turn, no Effect runs
during the writes (the execution log is still empty before the flush);
the single flush raises nothing; each Effect whose atom was affected
(i.e. is in the pending set) runs exactly once and unaffected Effects do
not run at all; and every value observed by any Effect during the flush
is the atom's final written value. -/
theorem c5_single_dep_once_per_flush (d : Nat → Nat) (nEff : Nat)
    (v0 : Nat → Int) (ws : List (Nat × SetArg)) :
    (applyWrites ws (mkState d nEff v0)).execLog = [] ∧
    (flushPendingAtoms (applyWrites ws (mkState d nEff v0))).2 = false ∧
    (∀ e, e < nEff →
      ((flushPendingAtoms (applyWrites ws
        (mkState d nEff v0))).1.execLog).count e =
        (if d e ∈ (applyWrites ws (mkState d nEff v0)).pendingAtoms
         then 1 else 0)) ∧
    (∀ p ∈ (flushPendingAtoms (applyWrites ws
        (mkState d nEff v0))).1.readLog,
      ∃ e, e < nEff ∧ p = (e, d e,
        ((applyWrites ws (mkState d nEff v0)).atoms (d e)).value)) := by
  have hg1 : GoodCfg d nEff (applyWrites ws (mkState d nEff v0)) :=
    GoodCfg_applyWrites d nEff ws _ (mkState_good d nEff v0)
  have hpd := applyWrites_pending_dirty ws (mkState d nEff v0)
    (by intro b hb; simp [mkState] at hb) (by simp [mkState])
  have hexec1 : (applyWrites ws (mkState d nEff v0)).execLog = [] := by
    rw [(applyWrites_preserves ws _).2.2.2.1]
    rfl
  have hread1 : (applyWrites ws (mkState d nEff v0)).readLog = [] := by
    rw [(applyWrites_preserves ws _).2.2.2.2]
    rfl
  have hstep : flushPendingAtoms (applyWrites ws (mkState d nEff v0)) =
      flushList
        (sortByKey
          (fun a => ((applyWrites ws (mkState d nEff v0)).atoms
            a).lastChangedEpoch)
          (applyWrites ws (mkState d nEff v0)).pendingAtoms)
        { applyWrites ws (mkState d nEff v0) with
            isBatchScheduled := false, pendingAtoms := [] } := rfl
  have hg2 : GoodCfg d nEff
      { applyWrites ws (mkState d nEff v0) with
          isBatchScheduled := false, pendingAtoms := [] } :=
    ⟨hg1.stack, hg1.effs, hg1.deps⟩
  have hperm := sortByKey_perm
    (fun a => ((applyWrites ws (mkState d nEff v0)).atoms
      a).lastChangedEpoch)
    (applyWrites ws (mkState d nEff v0)).pendingAtoms
  have hnodup := hperm.nodup_iff.mpr hpd.2
  have hdirty : ∀ a ∈ sortByKey
      (fun a => ((applyWrites ws (mkState d nEff v0)).atoms
        a).lastChangedEpoch)
      (applyWrites ws (mkState d nEff v0)).pendingAtoms,
      (({ applyWrites ws (mkState d nEff v0) with
          isBatchScheduled := false, pendingAtoms := [] } : RState).atoms
        a).isDirty = true := by
    intro a ha
    exact hpd.1 a (hperm.mem_iff.mp ha)
  obtain ⟨f1, f2, f3, f4⟩ := flushList_run d nEff _ _ hg2 hnodup hdirty
  rw [hstep]
  refine ⟨hexec1, f1, ?_, ?_⟩
  · intro e he
    rw [f2 e]
    have hz : (({ applyWrites ws (mkState d nEff v0) with
        isBatchScheduled := false, pendingAtoms := [] } :
          RState).execLog).count e = 0 := by
      rw [show ({ applyWrites ws (mkState d nEff v0) with
        isBatchScheduled := false, pendingAtoms := [] } :
          RState).execLog = (applyWrites ws (mkState d nEff v0)).execLog
        from rfl, hexec1]
      rfl
    rw [hz]
    simp [hperm.mem_iff, he]
  · intro p hp
    rcases f4 p hp with h1 | ⟨e, he, hpe⟩
    · rw [show ({ applyWrites ws (mkState d nEff v0) with
        isBatchScheduled := false, pendingAtoms := [] } :
          RState).readLog = (applyWrites ws (mkState d nEff v0)).readLog
        from rfl, hread1] at h1
      exact absurd h1 (List.not_mem_nil p)
    · exact ⟨e, he, hpe⟩

/-- C5 witness: the amended theorem applied to one atom, one Effect, one
effective write. -/
theorem c5_single_dep_once_per_flush_witness :
    (0 < 1) ∧
    ((flushPendingAtoms (applyWrites [(0, SetArg.val 2)]
        (mkState (fun _ => 0) 1 (fun _ => 0)))).1.execLog).count 0 =
      (if (0 : Nat) ∈ (applyWrites [(0, SetArg.val 2)]
          (mkState (fun _ => 0) 1 (fun _ => 0))).pendingAtoms
       then 1 else 0) :=
  ⟨Nat.one_pos, (c5_single_dep_once_per_flush (fun _ => 0) 1 (fun _ => 0)
      [(0, SetArg.val 2)]).2.2.1 0 Nat.one_pos⟩

end Jepsh
